import Mathlib

/-!
Verification of `actix-client-ip-cloudflare/src/fetch_cf_ips.rs`.

The file embeds the `TrustedIps` type and its operations. The type wraps a
CIDR combiner from the third-party `cidr_utils` crate, whose code is not part
of this repository; the combiner is therefore modelled from the specification
(sections 3, 4.1 and 9): a per-family collection of CIDR blocks that is
coalesced on insert (a block already covered is dropped, blocks covered by the
new block are removed, and sibling blocks are merged into their parent), with
membership queries and per-family export of the stored blocks.

Addresses are natural numbers below 2 to the power of the family width
(32 for IPv4, 128 for IPv6); a CIDR block is a network base address together
with a bit count.
-/

set_option autoImplicit false

namespace CfIps

/-- Structure for a CIDR block: a base (network) address and the number of leading
bits that are fixed. The address-family width (32 or 128) is supplied to each
operation. -/
structure Cidr where
  base : Nat
  bits : Nat
deriving DecidableEq, Repr

namespace Cidr

/-- Identifier of the block among all blocks of the same length: the fixed
leading bits of the base address. -/
def blockId (w : Nat) (c : Cidr) : Nat :=
  c.base / 2 ^ (w - c.bits)

/-- True when address `a` lies inside block `c` (the leading bits agree). -/
def containsAddr (w : Nat) (c : Cidr) (a : Nat) : Bool :=
  a / 2 ^ (w - c.bits) == c.blockId w

/-- True when block `d` is entirely inside block `c`. -/
def containsCidr (w : Nat) (c d : Cidr) : Bool :=
  decide (c.bits ≤ d.bits) && c.containsAddr w d.base

/-- Sibling block: same length, identifier differing in the last fixed bit. -/
def sibling (w : Nat) (c : Cidr) : Cidr :=
  ⟨(if c.blockId w % 2 = 0 then c.blockId w + 1 else c.blockId w - 1) * 2 ^ (w - c.bits),
    c.bits⟩

/-- Parent block: one fewer fixed bit, covering the block and its sibling. -/
def parent (w : Nat) (c : Cidr) : Cidr :=
  ⟨(c.blockId w / 2) * 2 ^ (w - c.bits + 1), c.bits - 1⟩

/-- Well-formedness of a block for family width `w`: the bit count fits the
width and the base address has no bits set past the block length. -/
def Valid (w : Nat) (c : Cidr) : Prop :=
  c.bits ≤ w ∧ c.base % 2 ^ (w - c.bits) = 0

instance (w : Nat) (c : Cidr) : Decidable (Valid w c) := by
  unfold Valid; infer_instance

end Cidr

/-- Helper performing the sibling merges of `mergeUp` with explicit fuel; each
merge shortens the block by one bit, so `c.bits` is always enough fuel. -/
def mergeUpAux (w : Nat) : Nat → Cidr → List Cidr → List Cidr
  | 0, c, L => c :: L
  | fuel + 1, c, L =>
    if c.bits = 0 then
      c :: L
    else if Cidr.sibling w c ∈ L then
      mergeUpAux w fuel (Cidr.parent w c) (L.erase (Cidr.sibling w c))
    else
      c :: L

/-- Modelled from the spec: insertion of a block into an already-coalesced list
of blocks of one family, merging a block with its sibling into the parent
block, repeatedly, as long as the sibling is present. -/
def mergeUp (w : Nat) (c : Cidr) (L : List Cidr) : List Cidr :=
  mergeUpAux w c.bits c L

/-- Modelled from the spec: coalescing insert for one family. If an existing
block already covers the new one, nothing changes; otherwise every existing
block covered by the new one is removed and the new block is merged in. -/
def pushList (w : Nat) (c : Cidr) (L : List Cidr) : List Cidr :=
  if L.any (fun d => Cidr.containsCidr w d c) then
    L
  else
    mergeUp w c (L.filter (fun d => ! Cidr.containsCidr w c d))

/-- Mixed-family CIDR block, as in `cidr_utils::cidr::IpCidr`. -/
inductive IpCidr where
  | V4 (c : Cidr)
  | V6 (c : Cidr)
deriving DecidableEq, Repr

/-- Mixed-family IP address, as in `std::net::IpAddr`. -/
inductive IpAddr where
  | v4 (a : Nat)
  | v6 (a : Nat)
deriving DecidableEq, Repr

/-- True when the block and the address belong to the same family and the
address lies inside the block. -/
def IpCidr.coversIp : IpCidr → IpAddr → Bool
  | .V4 c, .v4 a => Cidr.containsAddr 32 c a
  | .V6 c, .v6 a => Cidr.containsAddr 128 c a
  | _, _ => false

/-- Well-formedness of a mixed-family block for its family width. -/
def IpCidr.Valid : IpCidr → Prop
  | .V4 c => Cidr.Valid 32 c
  | .V6 c => Cidr.Valid 128 c

instance (c : IpCidr) : Decidable (IpCidr.Valid c) := by
  cases c <;> (unfold IpCidr.Valid; infer_instance)

/-- Modelled from the spec: `cidr_utils::utils::IpCidrCombiner`, a pair of
coalesced block collections, one per address family. -/
structure IpCidrCombiner where
  ipv4 : List Cidr
  ipv6 : List Cidr
deriving DecidableEq, Repr

namespace IpCidrCombiner

/-- Modelled from the spec: a combiner holding no blocks. -/
def new : IpCidrCombiner :=
  ⟨[], []⟩

/-- Modelled from the spec: coalescing insert, dispatched on the family of the
block. -/
def push (comb : IpCidrCombiner) (c : IpCidr) : IpCidrCombiner :=
  match c with
  | .V4 c => ⟨pushList 32 c comb.ipv4, comb.ipv6⟩
  | .V6 c => ⟨comb.ipv4, pushList 128 c comb.ipv6⟩

/-- Modelled from the spec: membership query, dispatched on the family of the
address; only blocks of the same family are consulted. -/
def contains (comb : IpCidrCombiner) (ip : IpAddr) : Bool :=
  match ip with
  | .v4 a => comb.ipv4.any (fun c => Cidr.containsAddr 32 c a)
  | .v6 a => comb.ipv6.any (fun c => Cidr.containsAddr 128 c a)

/-- Modelled from the spec: export of the stored IPv4 blocks. -/
def get_ipv4_cidrs (comb : IpCidrCombiner) : List Cidr :=
  comb.ipv4

/-- Modelled from the spec: export of the stored IPv6 blocks. -/
def get_ipv6_cidrs (comb : IpCidrCombiner) : List Cidr :=
  comb.ipv6

end IpCidrCombiner

/-- Modelled from the spec: `Ipv4Cidr::from_prefix_and_bits`, constructing an
IPv4 block from four address bytes and a bit count, rejecting byte values out
of range, bit counts above 32, and base addresses inconsistent with a
normalized network address. -/
def Ipv4Cidr.fromPrefixAndBits (b0 b1 b2 b3 : Nat) (bits : Nat) : Option Cidr :=
  let a := ((b0 * 256 + b1) * 256 + b2) * 256 + b3
  if b0 < 256 ∧ b1 < 256 ∧ b2 < 256 ∧ b3 < 256 ∧ bits ≤ 32 ∧ a % 2 ^ (32 - bits) = 0 then
    some ⟨a, bits⟩
  else
    none

/-- Error type of the fetcher and parser (`CfIpsFetchErr`). -/
inductive CfIpsFetchErr where
  | Fetch
deriving DecidableEq, Repr

/-- Payload of a successful response (`CfIpsResult`). -/
structure CfIpsResult where
  ipv4_cidrs : List Cidr
  ipv6_cidrs : List Cidr
deriving DecidableEq, Repr

/-- Deserialized response (`CfIpsResponse`): either a success carrying the
block lists or a failure flag. -/
inductive CfIpsResponse where
  | Success (result : CfIpsResult)
  | Failure (success : Bool)
deriving DecidableEq, Repr

/-- Set of trusted IP ranges (`TrustedIps`). -/
structure TrustedIps where
  cidr_ranges : IpCidrCombiner
deriving DecidableEq, Repr

namespace TrustedIps

/-- Construct new empty set of trusted IPs (`TrustedIps::new`, also the
`Default` instance). -/
def new : TrustedIps :=
  ⟨IpCidrCombiner.new⟩

/-- Add trusted IP range to set (`TrustedIps::add_ip_range`). -/
def add_ip_range (t : TrustedIps) (cidr : IpCidr) : TrustedIps :=
  ⟨t.cidr_ranges.push cidr⟩

/-- Deprecated alias of `add_ip_range` (`TrustedIps::with_ip_range`). -/
def with_ip_range (t : TrustedIps) (cidr : IpCidr) : TrustedIps :=
  t.add_ip_range cidr

/-- Adds the 127.0.0.0/8 IP range to this set (`TrustedIps::add_loopback_ips`);
the `unwrap` in the source is the proof that the block constructor succeeds. -/
def add_loopback_ips (t : TrustedIps) : TrustedIps :=
  t.add_ip_range (IpCidr.V4 ((Ipv4Cidr.fromPrefixAndBits 127 0 0 0 8).get (by decide)))

/-- Adds the 10.0.0.0/8 and 192.168.0.0/16 IP ranges to this set
(`TrustedIps::add_private_ips`). -/
def add_private_ips (t : TrustedIps) : TrustedIps :=
  (t.add_ip_range
      (IpCidr.V4 ((Ipv4Cidr.fromPrefixAndBits 10 0 0 0 8).get (by decide)))).add_ip_range
    (IpCidr.V4 ((Ipv4Cidr.fromPrefixAndBits 192 168 0 0 16).get (by decide)))

/-- Returns true if `ip` is trustworthy according to this set
(`TrustedIps::contains`). -/
def contains (t : TrustedIps) (ip : IpAddr) : Bool :=
  t.cidr_ranges.contains ip

/-- Constructs new set of trusted IPs from a deserialized Cloudflare response
(`TrustedIps::try_from_response`). -/
def try_from_response (res : CfIpsResponse) : Except CfIpsFetchErr TrustedIps :=
  match res with
  | .Failure _ => .error .Fetch
  | .Success result =>
    let combinerV4 :=
      result.ipv4_cidrs.foldl (fun comb c => comb.push (IpCidr.V4 c)) IpCidrCombiner.new
    let combinerV6 :=
      result.ipv6_cidrs.foldl (fun comb c => comb.push (IpCidr.V6 c)) combinerV4
    .ok ⟨combinerV6⟩

/-- Duplicate of the set (`impl Clone for TrustedIps`): export both block
lists and push every exported block into a fresh combiner. -/
def clone (t : TrustedIps) : TrustedIps :=
  let ipv4_cidrs := t.cidr_ranges.get_ipv4_cidrs
  let ipv6_cidrs := t.cidr_ranges.get_ipv6_cidrs
  ⟨(ipv4_cidrs.map IpCidr.V4 ++ ipv6_cidrs.map IpCidr.V6).foldl
      IpCidrCombiner.push IpCidrCombiner.new⟩

/-- Well-formedness of a trusted set: every stored block fits its family. -/
def WF (t : TrustedIps) : Prop :=
  (∀ c ∈ t.cidr_ranges.ipv4, Cidr.Valid 32 c) ∧ (∀ c ∈ t.cidr_ranges.ipv6, Cidr.Valid 128 c)

instance (t : TrustedIps) : Decidable (WF t) := by
  unfold WF; infer_instance

end TrustedIps

/-- The set obtained from the empty set by adding the given blocks in order. -/
def buildFrom (cs : List IpCidr) : TrustedIps :=
  cs.foldl TrustedIps.add_ip_range TrustedIps.new

/-- Membership answer of a parser result: a fetch error trusts no address. -/
def exceptContains (e : Except CfIpsFetchErr TrustedIps) (a : IpAddr) : Bool :=
  match e with
  | .ok t => t.contains a
  | .error _ => false

theorem div_div_two_pow (a k : Nat) : a / 2 ^ k / 2 = a / 2 ^ (k + 1) := by
  rw [Nat.div_div_eq_div_mul, pow_succ]

theorem Cidr.containsAddr_base (w : Nat) (c : Cidr) : Cidr.containsAddr w c c.base = true := by
  simp [Cidr.containsAddr, Cidr.blockId]

theorem Cidr.containsCidr_self (w : Nat) (c : Cidr) : Cidr.containsCidr w c c = true := by
  simp [Cidr.containsCidr, Cidr.containsAddr_base]

theorem Cidr.containsAddr_of_containsCidr {w : Nat} {c d : Cidr} {a : Nat}
    (hcd : Cidr.containsCidr w c d = true) (ha : Cidr.containsAddr w d a = true) :
    Cidr.containsAddr w c a = true := by
  unfold Cidr.containsCidr at hcd
  rw [Bool.and_eq_true, decide_eq_true_eq] at hcd
  obtain ⟨hbits, hbase⟩ := hcd
  unfold Cidr.containsAddr Cidr.blockId at ha hbase ⊢
  rw [beq_iff_eq] at ha hbase ⊢
  have hk : w - d.bits ≤ w - c.bits := Nat.sub_le_sub_left hbits w
  calc a / 2 ^ (w - c.bits)
      = a / 2 ^ (w - d.bits) / 2 ^ (w - c.bits - (w - d.bits)) := by
        rw [Nat.div_div_eq_div_mul, ← pow_add, Nat.add_sub_cancel' hk]
    _ = d.base / 2 ^ (w - d.bits) / 2 ^ (w - c.bits - (w - d.bits)) := by rw [ha]
    _ = d.base / 2 ^ (w - c.bits) := by
        rw [Nat.div_div_eq_div_mul, ← pow_add, Nat.add_sub_cancel' hk]
    _ = c.base / 2 ^ (w - c.bits) := hbase

theorem Cidr.containsCidr_trans {w : Nat} {c d e : Cidr}
    (hcd : Cidr.containsCidr w c d = true) (hde : Cidr.containsCidr w d e = true) :
    Cidr.containsCidr w c e = true := by
  have h1 : c.bits ≤ d.bits := by
    unfold Cidr.containsCidr at hcd
    rw [Bool.and_eq_true, decide_eq_true_eq] at hcd
    exact hcd.1
  have hde2 := hde
  unfold Cidr.containsCidr at hde2
  rw [Bool.and_eq_true, decide_eq_true_eq] at hde2
  unfold Cidr.containsCidr
  rw [Bool.and_eq_true, decide_eq_true_eq]
  exact ⟨le_trans h1 hde2.1, Cidr.containsAddr_of_containsCidr hcd hde2.2⟩

theorem Cidr.parent_bits (w : Nat) (c : Cidr) : (Cidr.parent w c).bits = c.bits - 1 := rfl

theorem Cidr.sibling_bits (w : Nat) (c : Cidr) : (Cidr.sibling w c).bits = c.bits := rfl

theorem Cidr.parent_blockId {w : Nat} {c : Cidr} (h1 : 1 ≤ c.bits) (hw : c.bits ≤ w) :
    (Cidr.parent w c).blockId w = c.blockId w / 2 := by
  unfold Cidr.parent Cidr.blockId
  simp only
  have hexp : w - (c.bits - 1) = w - c.bits + 1 := by omega
  rw [hexp]
  exact Nat.mul_div_cancel _ (Nat.pos_pow_of_pos _ (by norm_num))

theorem Cidr.sibling_blockId (w : Nat) (c : Cidr) :
    (Cidr.sibling w c).blockId w =
      if c.blockId w % 2 = 0 then c.blockId w + 1 else c.blockId w - 1 := by
  unfold Cidr.sibling Cidr.blockId
  simp only
  exact Nat.mul_div_cancel _ (Nat.pos_pow_of_pos _ (by norm_num))

theorem Cidr.containsAddr_parent {w : Nat} {c : Cidr} (h1 : 1 ≤ c.bits) (hw : c.bits ≤ w)
    (a : Nat) :
    Cidr.containsAddr w (Cidr.parent w c) a =
      (Cidr.containsAddr w c a || Cidr.containsAddr w (Cidr.sibling w c) a) := by
  apply Bool.coe_iff_coe.mp
  have hexp : w - (c.bits - 1) = w - c.bits + 1 := by omega
  simp only [Cidr.containsAddr, Bool.or_eq_true, beq_iff_eq, Cidr.parent_bits,
    Cidr.sibling_bits, Cidr.parent_blockId h1 hw, Cidr.sibling_blockId, hexp,
    ← div_div_two_pow]
  generalize c.blockId w = id
  generalize a / 2 ^ (w - c.bits) = x
  by_cases hid : id % 2 = 0
  · rw [if_pos hid]; omega
  · rw [if_neg hid]; omega

theorem Cidr.parent_containsCidr {w : Nat} {c : Cidr} (h1 : 1 ≤ c.bits) (hw : c.bits ≤ w) :
    Cidr.containsCidr w (Cidr.parent w c) c = true := by
  unfold Cidr.containsCidr
  rw [Bool.and_eq_true, decide_eq_true_eq]
  constructor
  · rw [Cidr.parent_bits]; omega
  · unfold Cidr.containsAddr
    rw [beq_iff_eq, Cidr.parent_blockId h1 hw, Cidr.parent_bits]
    have hexp : w - (c.bits - 1) = w - c.bits + 1 := by omega
    rw [hexp, ← div_div_two_pow]
    rfl

theorem any_erase {α : Type} [DecidableEq α] (f : α → Bool) :
    ∀ {L : List α} {x : α}, x ∈ L → L.any f = (f x || (L.erase x).any f) := by
  intro L
  induction L with
  | nil => intro x hx; cases hx
  | cons y ys ih =>
    intro x hx
    by_cases hyx : y = x
    · subst hyx
      simp [List.erase_cons_head]
    · have hxys : x ∈ ys := by
        cases hx with
        | head => exact absurd rfl hyx
        | tail _ h => exact h
      rw [List.erase_cons_tail (by simp [hyx]), List.any_cons, List.any_cons, ih hxys]
      cases f x <;> cases f y <;> simp

theorem any_mergeUpAux {w : Nat} :
    ∀ (fuel : Nat) (c : Cidr) (L : List Cidr), c.bits ≤ w → ∀ (a : Nat),
      (mergeUpAux w fuel c L).any (fun d => Cidr.containsAddr w d a) =
        (Cidr.containsAddr w c a || L.any (fun d => Cidr.containsAddr w d a)) := by
  intro fuel
  induction fuel with
  | zero => intro c L hw a; simp [mergeUpAux]
  | succ fuel ih =>
    intro c L hw a
    simp only [mergeUpAux]
    by_cases h0 : c.bits = 0
    · simp [h0]
    · rw [if_neg h0]
      by_cases hsib : Cidr.sibling w c ∈ L
      · rw [if_pos hsib]
        have hpw : (Cidr.parent w c).bits ≤ w := by rw [Cidr.parent_bits]; omega
        rw [ih (Cidr.parent w c) _ hpw a,
          Cidr.containsAddr_parent (by omega) hw a,
          any_erase _ hsib, Bool.or_assoc]
      · rw [if_neg hsib, List.any_cons]

theorem exists_cover_mergeUpAux {w : Nat} :
    ∀ (fuel : Nat) (c : Cidr) (L : List Cidr), c.bits ≤ w →
      ∃ p ∈ mergeUpAux w fuel c L, Cidr.containsCidr w p c = true := by
  intro fuel
  induction fuel with
  | zero => intro c L _; exact ⟨c, List.mem_cons_self c L, Cidr.containsCidr_self w c⟩
  | succ fuel ih =>
    intro c L hw
    simp only [mergeUpAux]
    by_cases h0 : c.bits = 0
    · rw [if_pos h0]
      exact ⟨c, List.mem_cons_self c L, Cidr.containsCidr_self w c⟩
    · rw [if_neg h0]
      by_cases hsib : Cidr.sibling w c ∈ L
      · rw [if_pos hsib]
        have hpw : (Cidr.parent w c).bits ≤ w := by rw [Cidr.parent_bits]; omega
        obtain ⟨p, hp, hpc⟩ := ih (Cidr.parent w c) (L.erase (Cidr.sibling w c)) hpw
        exact ⟨p, hp, Cidr.containsCidr_trans hpc (Cidr.parent_containsCidr (by omega) hw)⟩
      · rw [if_neg hsib]
        exact ⟨c, List.mem_cons_self c _, Cidr.containsCidr_self w c⟩

theorem any_pushList {w : Nat} (c : Cidr) (L : List Cidr) (hw : c.bits ≤ w) (a : Nat) :
    (pushList w c L).any (fun d => Cidr.containsAddr w d a) =
      (Cidr.containsAddr w c a || L.any (fun d => Cidr.containsAddr w d a)) := by
  unfold pushList
  by_cases hcov : L.any (fun d => Cidr.containsCidr w d c) = true
  · rw [if_pos hcov]
    apply Bool.coe_iff_coe.mp
    simp only [Bool.or_eq_true]
    constructor
    · exact fun h => Or.inr h
    · rintro (hc | h)
      · obtain ⟨d, hdL, hdc⟩ := List.any_eq_true.mp hcov
        exact List.any_eq_true.mpr ⟨d, hdL, Cidr.containsAddr_of_containsCidr hdc hc⟩
      · exact h
  · rw [if_neg hcov, mergeUp, any_mergeUpAux c.bits c _ hw a]
    apply Bool.coe_iff_coe.mp
    simp only [Bool.or_eq_true, List.any_eq_true]
    constructor
    · rintro (hc | ⟨d, hdF, hda⟩)
      · exact Or.inl hc
      · exact Or.inr ⟨d, List.mem_of_mem_filter hdF, hda⟩
    · rintro (hc | ⟨d, hdL, hda⟩)
      · exact Or.inl hc
      · by_cases hcd : Cidr.containsCidr w c d = true
        · exact Or.inl (Cidr.containsAddr_of_containsCidr hcd hda)
        · refine Or.inr ⟨d, List.mem_filter.mpr ⟨hdL, ?_⟩, hda⟩
          simp only [Bool.not_eq_true (Cidr.containsCidr w c d)] at hcd ⊢
          simp [hcd]

theorem pushList_of_covered {w : Nat} {c : Cidr} {L : List Cidr}
    (h : L.any (fun d => Cidr.containsCidr w d c) = true) : pushList w c L = L := by
  unfold pushList
  rw [if_pos h]

theorem exists_cover_pushList {w : Nat} (c : Cidr) (L : List Cidr) (hw : c.bits ≤ w) :
    ∃ p ∈ pushList w c L, Cidr.containsCidr w p c = true := by
  unfold pushList
  by_cases hcov : L.any (fun d => Cidr.containsCidr w d c) = true
  · rw [if_pos hcov]
    obtain ⟨d, hdL, hdc⟩ := List.any_eq_true.mp hcov
    exact ⟨d, hdL, hdc⟩
  · rw [if_neg hcov]
    exact exists_cover_mergeUpAux c.bits c _ hw

theorem pushList_idem {w : Nat} (c : Cidr) (L : List Cidr) (hw : c.bits ≤ w) :
    pushList w c (pushList w c L) = pushList w c L := by
  obtain ⟨p, hp, hpc⟩ := exists_cover_pushList c L hw
  exact pushList_of_covered (List.any_eq_true.mpr ⟨p, hp, hpc⟩)

theorem contains_push {comb : IpCidrCombiner} {c : IpCidr} (hc : IpCidr.Valid c) (a : IpAddr) :
    (comb.push c).contains a = (c.coversIp a || comb.contains a) := by
  cases c with
  | V4 cv =>
    simp only [IpCidr.Valid] at hc
    cases a with
    | v4 av =>
      simpa [IpCidrCombiner.push, IpCidrCombiner.contains, IpCidr.coversIp] using
        any_pushList cv comb.ipv4 hc.1 av
    | v6 av => simp [IpCidrCombiner.push, IpCidrCombiner.contains, IpCidr.coversIp]
  | V6 cv =>
    simp only [IpCidr.Valid] at hc
    cases a with
    | v4 av => simp [IpCidrCombiner.push, IpCidrCombiner.contains, IpCidr.coversIp]
    | v6 av =>
      simpa [IpCidrCombiner.push, IpCidrCombiner.contains, IpCidr.coversIp] using
        any_pushList cv comb.ipv6 hc.1 av

theorem contains_new (a : IpAddr) : IpCidrCombiner.new.contains a = false := by
  cases a <;> rfl

theorem contains_foldl_push (cs : List IpCidr) :
    ∀ (comb : IpCidrCombiner), (∀ c ∈ cs, IpCidr.Valid c) → ∀ (a : IpAddr),
      (cs.foldl IpCidrCombiner.push comb).contains a =
        (cs.any (fun c => c.coversIp a) || comb.contains a) := by
  induction cs with
  | nil => intro comb _ a; simp
  | cons c cs ih =>
    intro comb h a
    simp only [List.foldl_cons, List.any_cons]
    rw [ih _ (fun d hd => h d (List.mem_cons_of_mem c hd)) a,
      contains_push (h c (List.mem_cons_self c cs)) a]
    cases hx : c.coversIp a <;> cases hy : cs.any (fun d => d.coversIp a) <;> simp

theorem foldl_add_ip_range (cs : List IpCidr) :
    ∀ (t : TrustedIps),
      cs.foldl TrustedIps.add_ip_range t = ⟨cs.foldl IpCidrCombiner.push t.cidr_ranges⟩ := by
  induction cs with
  | nil => intro t; rfl
  | cons c cs ih =>
    intro t
    simp only [List.foldl_cons]
    rw [ih]
    rfl

theorem contains_buildFrom (cs : List IpCidr) (h : ∀ c ∈ cs, IpCidr.Valid c) (a : IpAddr) :
    (buildFrom cs).contains a = cs.any (fun c => c.coversIp a) := by
  unfold buildFrom
  rw [foldl_add_ip_range, TrustedIps.contains]
  show (cs.foldl IpCidrCombiner.push TrustedIps.new.cidr_ranges).contains a = _
  rw [contains_foldl_push cs _ h a]
  show ((cs.any fun c => c.coversIp a) || IpCidrCombiner.new.contains a) = _
  rw [contains_new, Bool.or_false]

theorem ipv6_foldl_push_v4 (cs : List Cidr) :
    ∀ (comb : IpCidrCombiner),
      ((cs.map IpCidr.V4).foldl IpCidrCombiner.push comb).ipv6 = comb.ipv6 := by
  induction cs with
  | nil => intro comb; rfl
  | cons c cs ih =>
    intro comb
    simp only [List.map_cons, List.foldl_cons]
    rw [ih]
    rfl

/-- C2: for a freshly constructed set (`TrustedIps::new`, equivalently the
`Default` instance), `contains` returns false for every address, IPv4 or
IPv6. -/
theorem claim_c2_empty_set_contains_nothing (a : IpAddr) :
    TrustedIps.new.contains a = false := by
  cases a <;> rfl

/-- C3: after `add_loopback_ips()` on an empty set, 127.0.0.1 is contained and
10.0.1.1 is not; after additionally `add_private_ips()`, 10.0.1.1 and
192.168.1.1 are contained while 172.16.0.1 is not (the preset omits
172.16.0.0/12). Addresses are written as 32-bit numbers. -/
theorem claim_c3_preset_membership :
    (TrustedIps.new.add_loopback_ips).contains (IpAddr.v4 2130706433) = true
    ∧ (TrustedIps.new.add_loopback_ips).contains (IpAddr.v4 167772417) = false
    ∧ ((TrustedIps.new.add_loopback_ips).add_private_ips).contains
        (IpAddr.v4 167772417) = true
    ∧ ((TrustedIps.new.add_loopback_ips).add_private_ips).contains
        (IpAddr.v4 3232235777) = true
    ∧ ((TrustedIps.new.add_loopback_ips).add_private_ips).contains
        (IpAddr.v4 2886729729) = false := by
  decide

/-- C5: a set built by adding only IPv4 ranges answers false for every IPv6
address; in particular the set built from `add_loopback_ips()` alone does not
contain the IPv6 loopback address ::1. -/
theorem claim_c5_family_isolation (cs : List Cidr) (a : Nat) :
    (buildFrom (cs.map IpCidr.V4)).contains (IpAddr.v6 a) = false
    ∧ (TrustedIps.new.add_loopback_ips).contains (IpAddr.v6 1) = false := by
  constructor
  · rw [buildFrom, foldl_add_ip_range, TrustedIps.contains]
    show IpCidrCombiner.contains _ _ = false
    rw [IpCidrCombiner.contains, ipv6_foldl_push_v4]
    rfl
  · rfl

/-- C6: after adding 10.0.0.0/9 and 10.128.0.0/9 to the empty set, every
address of 10.0.0.0/8 is contained, and the exported IPv4 block list is the
single coalesced block 10.0.0.0/8 (the IPv6 export stays empty). -/
theorem claim_c6_sibling_merge (a : Nat)
    (ha : Cidr.containsAddr 32 ⟨167772160, 8⟩ a = true) :
    ((TrustedIps.new.add_ip_range (IpCidr.V4 ⟨167772160, 9⟩)).add_ip_range
        (IpCidr.V4 ⟨176160768, 9⟩)).contains (IpAddr.v4 a) = true
    ∧ ((TrustedIps.new.add_ip_range (IpCidr.V4 ⟨167772160, 9⟩)).add_ip_range
        (IpCidr.V4 ⟨176160768, 9⟩)).cidr_ranges.get_ipv4_cidrs = [⟨167772160, 8⟩]
    ∧ ((TrustedIps.new.add_ip_range (IpCidr.V4 ⟨167772160, 9⟩)).add_ip_range
        (IpCidr.V4 ⟨176160768, 9⟩)).cidr_ranges.get_ipv6_cidrs = [] := by
  refine ⟨?_, by decide, by decide⟩
  have hexp : ((TrustedIps.new.add_ip_range (IpCidr.V4 ⟨167772160, 9⟩)).add_ip_range
      (IpCidr.V4 ⟨176160768, 9⟩)).cidr_ranges = ⟨[⟨167772160, 8⟩], []⟩ := by decide
  rw [TrustedIps.contains, hexp, IpCidrCombiner.contains, List.any_cons, ha]
  rfl

/-- Witness for C6 at the concrete address 10.0.0.5. -/
theorem claim_c6_sibling_merge_witness :
    ((TrustedIps.new.add_ip_range (IpCidr.V4 ⟨167772160, 9⟩)).add_ip_range
        (IpCidr.V4 ⟨176160768, 9⟩)).contains (IpAddr.v4 167772165) = true :=
  (claim_c6_sibling_merge 167772165 (by decide)).1

/-- C7: adding the same well-formed CIDR block twice yields a set equal to the
one obtained by adding it once, hence identical membership answers, an
identical exported block list, and no growth of the stored collection. -/
theorem claim_c7_idempotent_insert (t : TrustedIps) (c : IpCidr) (hc : IpCidr.Valid c) :
    (t.add_ip_range c).add_ip_range c = t.add_ip_range c := by
  cases c with
  | V4 cv =>
    simp only [IpCidr.Valid] at hc
    obtain ⟨h1, _⟩ := hc
    simp only [TrustedIps.add_ip_range, IpCidrCombiner.push]
    rw [pushList_idem cv _ h1]
  | V6 cv =>
    simp only [IpCidr.Valid] at hc
    obtain ⟨h1, _⟩ := hc
    simp only [TrustedIps.add_ip_range, IpCidrCombiner.push]
    rw [pushList_idem cv _ h1]

/-- Witness for C7 with the block 10.0.0.0/9 added twice to the empty set. -/
theorem claim_c7_idempotent_insert_witness :
    (TrustedIps.new.add_ip_range (IpCidr.V4 ⟨167772160, 9⟩)).add_ip_range
        (IpCidr.V4 ⟨167772160, 9⟩) =
      TrustedIps.new.add_ip_range (IpCidr.V4 ⟨167772160, 9⟩) :=
  claim_c7_idempotent_insert TrustedIps.new (IpCidr.V4 ⟨167772160, 9⟩) (by decide)

/-- C10: the three block constructions unwrapped inside the preset builders
succeed: 127.0.0.0/8, 10.0.0.0/8 and 192.168.0.0/16 are all accepted by
`Ipv4Cidr.fromPrefixAndBits`, so `add_loopback_ips` and `add_private_ips`
never panic. -/
theorem claim_c10_preset_unwraps_succeed :
    (Ipv4Cidr.fromPrefixAndBits 127 0 0 0 8).isSome = true
    ∧ (Ipv4Cidr.fromPrefixAndBits 10 0 0 0 8).isSome = true
    ∧ (Ipv4Cidr.fromPrefixAndBits 192 168 0 0 16).isSome = true := by
  decide

theorem any_map_fn {α β : Type} (f : α → β) (p : β → Bool) :
    ∀ (l : List α), (l.map f).any p = l.any (fun x => p (f x)) := by
  intro l
  induction l with
  | nil => rfl
  | cons x xs ih => simp only [List.map_cons, List.any_cons, ih]

theorem any_perm {α : Type} {l1 l2 : List α} (f : α → Bool) (h : List.Perm l1 l2) :
    l1.any f = l2.any f := by
  apply Bool.coe_iff_coe.mp
  simp only [List.any_eq_true]
  constructor <;> rintro ⟨x, hx, hfx⟩
  · exact ⟨x, h.mem_iff.mp hx, hfx⟩
  · exact ⟨x, h.mem_iff.mpr hx, hfx⟩

/-- C1: for every set built from the empty set by adding any finite sequence
of well-formed CIDR blocks, `contains a` is true exactly when `a` falls inside
at least one added block, and the answer is unchanged under any permutation of
the insertion order. -/
theorem claim_c1_contains_iff_member_of_some_block (cs cs2 : List IpCidr) (a : IpAddr)
    (h : ∀ c ∈ cs, IpCidr.Valid c) (hperm : List.Perm cs cs2) :
    ((buildFrom cs).contains a = cs.any (fun c => c.coversIp a))
    ∧ (buildFrom cs2).contains a = (buildFrom cs).contains a := by
  have h2 : ∀ c ∈ cs2, IpCidr.Valid c := fun c hc => h c (hperm.mem_iff.mpr hc)
  refine ⟨contains_buildFrom cs h a, ?_⟩
  rw [contains_buildFrom cs h a, contains_buildFrom cs2 h2 a]
  exact any_perm _ hperm.symm

/-- Witness for C1: the two /9 halves of 10.0.0.0/8 added in both orders,
queried at 10.0.0.5. -/
theorem claim_c1_contains_iff_member_of_some_block_witness :
    ((buildFrom [IpCidr.V4 ⟨167772160, 9⟩, IpCidr.V4 ⟨176160768, 9⟩]).contains
        (IpAddr.v4 167772165) =
      [IpCidr.V4 ⟨167772160, 9⟩, IpCidr.V4 ⟨176160768, 9⟩].any
        (fun c => c.coversIp (IpAddr.v4 167772165))) :=
  (claim_c1_contains_iff_member_of_some_block
    [IpCidr.V4 ⟨167772160, 9⟩, IpCidr.V4 ⟨176160768, 9⟩]
    [IpCidr.V4 ⟨176160768, 9⟩, IpCidr.V4 ⟨167772160, 9⟩]
    (IpAddr.v4 167772165) (by decide) (by decide)).1

theorem try_from_response_success_contains (result : CfIpsResult)
    (h4 : ∀ c ∈ result.ipv4_cidrs, Cidr.Valid 32 c)
    (h6 : ∀ c ∈ result.ipv6_cidrs, Cidr.Valid 128 c) (a : IpAddr) :
    exceptContains (TrustedIps.try_from_response (.Success result)) a =
      (result.ipv4_cidrs.any (fun c => (IpCidr.V4 c).coversIp a)
        || result.ipv6_cidrs.any (fun c => (IpCidr.V6 c).coversIp a)) := by
  simp only [TrustedIps.try_from_response, exceptContains, TrustedIps.contains]
  rw [← List.foldl_map IpCidr.V4 IpCidrCombiner.push,
    ← List.foldl_map IpCidr.V6 IpCidrCombiner.push]
  have hv4 : ∀ c ∈ result.ipv4_cidrs.map IpCidr.V4, IpCidr.Valid c := by
    intro c hc
    obtain ⟨d, hd, rfl⟩ := List.mem_map.mp hc
    show Cidr.Valid 32 d
    exact h4 d hd
  have hv6 : ∀ c ∈ result.ipv6_cidrs.map IpCidr.V6, IpCidr.Valid c := by
    intro c hc
    obtain ⟨d, hd, rfl⟩ := List.mem_map.mp hc
    show Cidr.Valid 128 d
    exact h6 d hd
  rw [contains_foldl_push _ _ hv6 a, contains_foldl_push _ _ hv4 a, contains_new,
    Bool.or_false, any_map_fn, any_map_fn, Bool.or_comm]

/-- C4: `try_from_response` returns the fetch error exactly on `Failure`
inputs; every `Success` input yields `Ok` with a set whose membership answer
agrees with the union of the listed blocks (fully populated, no partial
recovery). -/
theorem claim_c4_failure_iff_error (res : CfIpsResponse) (result : CfIpsResult) (a : IpAddr)
    (h4 : ∀ c ∈ result.ipv4_cidrs, Cidr.Valid 32 c)
    (h6 : ∀ c ∈ result.ipv6_cidrs, Cidr.Valid 128 c) :
    (TrustedIps.try_from_response res = .error .Fetch ↔ ∃ b, res = .Failure b)
    ∧ (TrustedIps.try_from_response (.Success result)).isOk = true
    ∧ exceptContains (TrustedIps.try_from_response (.Success result)) a =
        (result.ipv4_cidrs.any (fun c => (IpCidr.V4 c).coversIp a)
          || result.ipv6_cidrs.any (fun c => (IpCidr.V6 c).coversIp a)) := by
  refine ⟨?_, rfl, try_from_response_success_contains result h4 h6 a⟩
  cases res with
  | Success r =>
    constructor
    · intro h
      exact absurd h (by simp [TrustedIps.try_from_response])
    · rintro ⟨b, hb⟩
      cases hb
  | Failure b =>
    exact ⟨fun _ => ⟨b, rfl⟩, fun _ => rfl⟩

/-- Witness for C4 at a full-coverage success payload. -/
theorem claim_c4_failure_iff_error_witness :
    (TrustedIps.try_from_response
        (.Success ⟨[⟨0, 0⟩], [⟨0, 0⟩]⟩)).isOk = true :=
  (claim_c4_failure_iff_error (CfIpsResponse.Failure false) ⟨[⟨0, 0⟩], [⟨0, 0⟩]⟩
    (IpAddr.v4 7) (by decide) (by decide)).2.1

theorem any_coversIp_map_v4_at_v4 (l : List Cidr) (av : Nat) :
    (l.map IpCidr.V4).any (fun c => c.coversIp (IpAddr.v4 av)) =
      l.any (fun c => Cidr.containsAddr 32 c av) := by
  rw [any_map_fn]
  rfl

theorem any_coversIp_map_v6_at_v6 (l : List Cidr) (av : Nat) :
    (l.map IpCidr.V6).any (fun c => c.coversIp (IpAddr.v6 av)) =
      l.any (fun c => Cidr.containsAddr 128 c av) := by
  rw [any_map_fn]
  rfl

theorem any_coversIp_map_v6_at_v4 (l : List Cidr) (av : Nat) :
    (l.map IpCidr.V6).any (fun c => c.coversIp (IpAddr.v4 av)) = false := by
  rw [any_map_fn]
  induction l with
  | nil => rfl
  | cons c cs ih => simp only [List.any_cons, ih, Bool.or_false]; rfl

theorem any_coversIp_map_v4_at_v6 (l : List Cidr) (av : Nat) :
    (l.map IpCidr.V4).any (fun c => c.coversIp (IpAddr.v6 av)) = false := by
  rw [any_map_fn]
  induction l with
  | nil => rfl
  | cons c cs ih => simp only [List.any_cons, ih, Bool.or_false]; rfl

/-- C8: for every well-formed set, the duplicate produced by `clone` answers
`contains` identically to the original at every address; the copies share no
state, the original being unchanged by construction in this value-level
model. -/
theorem claim_c8_clone_preserves_contains (t : TrustedIps) (hwf : TrustedIps.WF t)
    (a : IpAddr) :
    t.clone.contains a = t.contains a := by
  obtain ⟨h4, h6⟩ := hwf
  have hvalid : ∀ c ∈ (t.cidr_ranges.get_ipv4_cidrs.map IpCidr.V4
      ++ t.cidr_ranges.get_ipv6_cidrs.map IpCidr.V6), IpCidr.Valid c := by
    intro c hc
    rcases List.mem_append.mp hc with hm | hm
    · obtain ⟨d, hd, rfl⟩ := List.mem_map.mp hm
      show Cidr.Valid 32 d
      exact h4 d hd
    · obtain ⟨d, hd, rfl⟩ := List.mem_map.mp hm
      show Cidr.Valid 128 d
      exact h6 d hd
  simp only [TrustedIps.clone, TrustedIps.contains]
  show (List.foldl IpCidrCombiner.push IpCidrCombiner.new _).contains a = _
  rw [contains_foldl_push _ _ hvalid a, contains_new, Bool.or_false, List.any_append]
  cases a with
  | v4 av =>
    rw [any_coversIp_map_v4_at_v4, any_coversIp_map_v6_at_v4, Bool.or_false]
    rfl
  | v6 av =>
    rw [any_coversIp_map_v6_at_v6, any_coversIp_map_v4_at_v6, Bool.false_or]
    rfl

/-- Witness for C8 on the loopback preset at 127.0.0.1. -/
theorem claim_c8_clone_preserves_contains_witness :
    (TrustedIps.new.add_loopback_ips).clone.contains (IpAddr.v4 2130706433) =
      (TrustedIps.new.add_loopback_ips).contains (IpAddr.v4 2130706433) :=
  claim_c8_clone_preserves_contains (TrustedIps.new.add_loopback_ips) (by decide)
    (IpAddr.v4 2130706433)

/-- C9: on a success response listing exactly 0.0.0.0/0 and ::/0,
`try_from_response` yields a set containing every IPv4 address and every IPv6
address. -/
theorem claim_c9_full_coverage_response (a4 a6 : Nat) (h4 : a4 < 2 ^ 32)
    (h6 : a6 < 2 ^ 128) :
    exceptContains (TrustedIps.try_from_response
        (.Success ⟨[⟨0, 0⟩], [⟨0, 0⟩]⟩)) (IpAddr.v4 a4) = true
    ∧ exceptContains (TrustedIps.try_from_response
        (.Success ⟨[⟨0, 0⟩], [⟨0, 0⟩]⟩)) (IpAddr.v6 a6) = true := by
  have hres : TrustedIps.try_from_response (.Success ⟨[⟨0, 0⟩], [⟨0, 0⟩]⟩) =
      .ok ⟨⟨[⟨0, 0⟩], [⟨0, 0⟩]⟩⟩ := rfl
  rw [hres]
  constructor
  · show ((⟨⟨[⟨0, 0⟩], [⟨0, 0⟩]⟩⟩ : TrustedIps)).contains (IpAddr.v4 a4) = true
    simp only [TrustedIps.contains, IpCidrCombiner.contains, List.any_cons, List.any_nil,
      Cidr.containsAddr, Cidr.blockId, Bool.or_false, beq_iff_eq]
    omega
  · show ((⟨⟨[⟨0, 0⟩], [⟨0, 0⟩]⟩⟩ : TrustedIps)).contains (IpAddr.v6 a6) = true
    simp only [TrustedIps.contains, IpCidrCombiner.contains, List.any_cons, List.any_nil,
      Cidr.containsAddr, Cidr.blockId, Bool.or_false, beq_iff_eq]
    omega

/-- Witness for C9 at 10.0.0.5 and at the top half of the IPv6 space. -/
theorem claim_c9_full_coverage_response_witness :
    exceptContains (TrustedIps.try_from_response
        (.Success ⟨[⟨0, 0⟩], [⟨0, 0⟩]⟩)) (IpAddr.v4 167772165) = true :=
  (claim_c9_full_coverage_response 167772165 (2 ^ 127) (by norm_num) (by norm_num)).1

end CfIps
